import Mathlib

/-!
Verification development for the value-inference / class-model subsystem
(`jedi/inference/value/klass.py`, `jedi/parser_utils.py`,
`jedi/plugins/stdlib.py`).

The source is shallowly embedded: classes are rows of a finite table,
`ValueSet`s are first-occurrence-ordered duplicate-free lists, lazy values
are represented by the list of values they infer to, and the per-session
memoization cache (external to the embedded modules) is represented by an
explicit in-progress list: a re-entrant call on a class whose computation
is already running returns the cache's designated empty sentinel, exactly
the cycle mechanism the design documents.
-/

namespace JediSpec

/-- A runtime value as seen by the inference engine: either a class of the
class table (identified by its index) or some non-class value. -/
inductive Value where
  | cls (id : Nat)
  | other (tag : Nat)
deriving DecidableEq, Repr

/-- One class definition: its declared name, its base-argument list
(`None` when the class declaration has no parenthesized argument list;
otherwise each argument is a pair of an optional keyword and the list of
values its lazy expression infers to), and whether its parent context is
the builtins module. -/
structure ClassInfo where
  name : String
  arglist : Option (List (Option String × List Value))
  inBuiltins : Bool
deriving DecidableEq, Repr

/-- The inference environment: the class table and the value set that
`builtins_module.py__getattribute__('object')` resolves to. -/
structure Env where
  table : List ClassInfo
  objectValues : List Value
deriving Repr

/-- Embeds the list comprehension in `ClassValue.py__bases__`:
the positional (non-keyword) arguments of the base-argument list, each as
the inferred values of its lazy value; `[]` when the arglist is absent. -/
def positionalBases (c : ClassInfo) : List (List Value) :=
  match c.arglist with
  | none => []
  | some lst => (lst.filter fun p => p.1 = none).map fun p => p.2

/-- Embeds `ClassValue.py__bases__` (klass.py lines 267-280): positional
arguments win when non-empty; otherwise the builtin `object` class gets no
bases and every other class gets the single implicit lazy base resolving
to the builtin `object`. -/
def pyBases (env : Env) (i : Nat) : List (List Value) :=
  match env.table.get? i with
  | none => []
  | some c =>
    let pos := positionalBases c
    if pos ≠ [] then pos
    else if c.name = "object" ∧ c.inBuiltins then []
    else [env.objectValues]

/-- Embeds the `if cls_new not in mro: mro.append(cls_new)` loop of
`ClassMixin.py__mro__`: appends the new elements that are not already
present, keeping first occurrences. -/
def dedupAppend (acc new : List Value) : List Value :=
  new.foldl (fun m c => if c ∈ m then m else m ++ [c]) acc

/-- Embeds `ClassMixin.py__mro__` (klass.py lines 162-193).  The fuel
argument bounds the recursion depth (the real code is bounded by the
per-session generator cache over the finite set of classes); `inProg` is
the set of classes whose MRO computation is running: re-entering one of
them returns the cache's empty sentinel instead of recursing.  Non-class
base values (no `py__mro__` attribute) are skipped with a warning. -/
def pyMroAux (env : Env) : Nat → List Nat → Nat → List Value
  | 0, _, _ => []
  | Nat.succ fuel, inProg, i =>
      (pyBases env i).foldl
        (fun mro lazyVals =>
          lazyVals.foldl
            (fun m v =>
              match v with
              | Value.cls j =>
                  if j = i ∨ j ∈ inProg then m
                  else dedupAppend m (pyMroAux env fuel (i :: inProg) j)
              | Value.other _ => m)
            mro)
        [Value.cls i]

/-- The MRO of class `i`: `py__mro__` run with enough fuel for the whole
table (the recursion adds a distinct in-progress class per level, so the
depth never exceeds the table size plus a dangling reference). -/
def pyMro (env : Env) (i : Nat) : List Value :=
  pyMroAux env (env.table.length + 2) [] i

/-- Embeds `Value.is_class()`. -/
def isClass : Value → Bool
  | Value.cls _ => true
  | Value.other _ => false

/-- Embeds the `metaclass=` keyword part of `ClassValue.get_metaclasses`:
the inferred values of all `metaclass=` keyword arguments, deduplicated
(`ValueSet.from_sets`), keeping only those that are classes. -/
def metaclassKwValues (c : ClassInfo) : List Value :=
  match c.arglist with
  | none => []
  | some lst =>
    (dedupAppend []
      (((lst.filter fun p => p.1 = some "metaclass").map fun p => p.2).flatten)).filter
      fun v => isClass v

/-- First non-empty list of a list of lists, `[]` when all are empty:
the early-`return` of the declaration-order base scan. -/
def firstNonempty : List (List Value) → List Value
  | [] => []
  | x :: xs => if x = [] then firstNonempty xs else x

/-- Embeds `ClassValue.get_metaclasses` (klass.py lines 323-339), with
the same fuel/in-progress representation of the memoization cache as
`pyMroAux` (the cache's declared default `NO_VALUES` is returned on
re-entry). -/
def getMetaclassesAux (env : Env) : Nat → List Nat → Nat → List Value
  | 0, _, _ => []
  | Nat.succ fuel, inProg, i =>
    match env.table.get? i with
    | none => []
    | some c =>
      let kw := metaclassKwValues c
      if kw ≠ [] then kw
      else
        firstNonempty
          ((pyBases env i).flatten.filterMap fun v =>
            match v with
            | Value.cls j =>
                some (if j = i ∨ j ∈ inProg then []
                      else getMetaclassesAux env fuel (i :: inProg) j)
            | Value.other _ => none)

/-- The metaclasses of class `i` with table-sized fuel. -/
def getMetaclasses (env : Env) (i : Nat) : List Value :=
  getMetaclassesAux env (env.table.length + 2) [] i

/-- The per-base metaclass candidates scanned by `get_metaclasses` when no
usable `metaclass=` keyword is present: for each class value among the
inferred bases, in declaration order, that base's own metaclass set. -/
def scanResults (env : Env) (i : Nat) : List (List Value) :=
  (pyBases env i).flatten.filterMap fun v =>
    match v with
    | Value.cls j =>
        some (if j = i then []
              else getMetaclassesAux env (env.table.length + 1) [i] j)
    | Value.other _ => none

/-- A class-body name as seen by `ClassFilter._access_possible`: its
identifier text, whether its definition is an `expr_stmt` whose second
child is an `annassign`, and whether the annotation's code contains the
`ClassVar` marker. -/
structure MemberName where
  value : String
  defIsAnnassign : Bool
  annotationHasClassVar : Bool
deriving DecidableEq, Repr

/-- Embeds `ClassFilter._equals_origin_scope` (klass.py lines 105-111):
the `while` loop walks the origin scope and its ancestors (via the
external `get_cached_parent_scope`), so the origin scope is represented by
its ancestor chain (`[]` for a `None` origin scope); the loop succeeds
when the chain meets the filter's parser scope or its class value. -/
def equalsOriginScope (parserScope valueScope : Nat) (originChain : List Nat) : Bool :=
  originChain.any fun n => n = parserScope ∨ n = valueScope

/-- Python's `str.startswith`, computed on the underlying character
lists. -/
def strStartsWith (s pre : String) : Bool :=
  pre.data.isPrefixOf s.data

/-- Python's `str.endswith`, computed on the underlying character
lists. -/
def strEndsWith (s suf : String) : Bool :=
  suf.data.reverse.isPrefixOf s.data.reverse

/-- Embeds `ClassFilter._access_possible` (klass.py lines 113-129): the
`ClassVar` heuristic rejects annotated assignments without the marker on
non-instance access, then name mangling hides `__name`-style identifiers
from origin scopes outside the class body. -/
def accessPossible (parserScope valueScope : Nat) (originChain : List Nat)
    (fromInstance : Bool) (n : MemberName) : Bool :=
  if fromInstance = false ∧ n.defIsAnnassign ∧ n.annotationHasClassVar = false then
    false
  else
    !(strStartsWith n.value "__") || strEndsWith n.value "__"
      || equalsOriginScope parserScope valueScope originChain

/-- Embeds `ClassFilter._filter`: keeps the names `_access_possible`
admits (the inherited positional filtering of `ParserTreeFilter._filter`
is external to the embedded module and acts before this step). -/
def classFilterNames (parserScope valueScope : Nat) (originChain : List Nat)
    (fromInstance : Bool) (names : List MemberName) : List MemberName :=
  names.filter fun n => accessPossible parserScope valueScope originChain fromInstance n

/-- A child of a compound-flow node, as `get_flow_branch_keyword` sees it:
its start position and the text of its first leaf.  Positions are
abstracted to naturals (the code only compares them). -/
structure FlowChild where
  startPos : Nat
  firstLeaf : String
deriving DecidableEq, Repr

/-- A compound-flow statement node: its span and its children. -/
structure FlowNode where
  startPos : Nat
  endPos : Nat
  children : List FlowChild
deriving DecidableEq, Repr

/-- What `get_flow_branch_keyword` can produce: a raised `ValueError`, a
returned keyword (possibly `None`), or the literal `0` of the final
`return 0` statement. -/
inductive FlowResult where
  | err
  | kw (k : Option String)
  | zero
deriving DecidableEq, Repr

/-- The `_FLOW_KEYWORDS` tuple of parser_utils.py. -/
def flowKeywords : List String :=
  ["try", "except", "finally", "else", "if", "elif", "with", "for", "while"]

/-- The `for` loop of `get_flow_branch_keyword`: returns the keyword
gathered so far once a child starts after the node, otherwise remembers
the child's first leaf whenever it is a flow keyword; falls through to
`return 0`. -/
def flowBranchLoop (nodeStart : Nat) : List FlowChild → Option String → FlowResult
  | [], _ => FlowResult.zero
  | c :: rest, keyword =>
    if nodeStart < c.startPos then FlowResult.kw keyword
    else
      flowBranchLoop nodeStart rest
        (if c.firstLeaf ∈ flowKeywords then some c.firstLeaf else keyword)

/-- Embeds `get_flow_branch_keyword` (parser_utils.py lines 76-88):
raises `ValueError` when the node's start position is outside the
half-open flow span, otherwise runs the child scan. -/
def getFlowBranchKeyword (flow : FlowNode) (nodeStart : Nat) : FlowResult :=
  if ¬(flow.startPos < nodeStart ∧ nodeStart ≤ flow.endPos) then FlowResult.err
  else flowBranchLoop nodeStart flow.children none

/-- A syntax-tree node for `get_executable_nodes`: leaves carry their
type, text, start position and whether the next leaf of the tree is `=`
(the only fact `get_next_leaf` is asked for); inner nodes carry their type
and children. -/
inductive PyNode where
  | leaf (typ : String) (value : String) (pos : Nat) (nextIsEq : Bool)
  | node (typ : String) (children : List PyNode)

/-- Embeds the tree's `==` against a string: only a leaf compares by its
text. -/
def nodeEqStr : PyNode → String → Bool
  | PyNode.leaf _ v _ _, s => v = s
  | PyNode.node _ _, _ => false

/-- The `_EXECUTE_NODES` set of parser_utils.py. -/
def executeNodeTypes : List String :=
  ["funcdef", "classdef", "import_from", "import_name", "test", "or_test",
   "and_test", "not_test", "comparison", "expr", "xor_expr", "and_expr",
   "shift_expr", "arith_expr", "atom_expr", "term", "factor", "power", "atom"]

mutual

/-- Embeds `get_executable_nodes` (parser_utils.py lines 18-52).  The
parent's type is threaded explicitly (`node.parent.type` in the source);
`la` is the `last_added` flag.  In the decorator branch the source indexes
`children[-2]` and `children[-3]`; real decorator nodes always have at
least three children, which the index arithmetic below assumes. -/
def getExecutableNodes (p : Option String) (la : Bool) (n : PyNode) : List PyNode :=
  match n with
  | PyNode.leaf t v pos nextIsEq =>
      if t = "name" then
        if la = false ∧ p ≠ some "param" ∧ nextIsEq = false then
          [PyNode.leaf t v pos nextIsEq]
        else []
      else []
  | PyNode.node t children =>
      if t = "expr_stmt" then
        PyNode.node t children :: execNodesList (some t) true children
      else if t = "decorator" then
        match _hr : children.get? (children.length - 2) with
        | some r =>
          if nodeEqStr r ")" then
            match _hm : children.get? (children.length - 3) with
            | some m =>
                if nodeEqStr m "(" then []
                else getExecutableNodes (some t) false m
            | none => []
          else []
        | none => []
      else
        (if t ∈ executeNodeTypes ∧ la = false then [PyNode.node t children] else [])
          ++ execNodesList (some t) la children
termination_by sizeOf n
decreasing_by
  all_goals simp only [List.cons.sizeOf_spec, PyNode.node.sizeOf_spec]
  all_goals first
    | omega
    | (have hlt := List.sizeOf_lt_of_mem (List.get?_mem (by assumption))
       omega)

/-- The `for child in children: result += get_executable_nodes(child, ...)`
loops of `get_executable_nodes`. -/
def execNodesList (p : Option String) (la : Bool) (l : List PyNode) : List PyNode :=
  match l with
  | [] => []
  | c :: cs => getExecutableNodes p la c ++ execNodesList p la cs
termination_by sizeOf l
decreasing_by
  · simp only [List.cons.sizeOf_spec]
    omega
  · simp only [List.cons.sizeOf_spec]
    omega

end

mutual

/-- Collector for the C10 statement: the `name` leaves of a tree together
with the admissibility conditions of the `name` branch that do not depend
on `last_added` — the occurrence's parent type is not `param` and the next
leaf is not `=`. -/
def allowedNames (p : Option String) (n : PyNode) : List PyNode :=
  match n with
  | PyNode.leaf t v pos nextIsEq =>
      if t = "name" ∧ p ≠ some "param" ∧ nextIsEq = false then
        [PyNode.leaf t v pos nextIsEq]
      else []
  | PyNode.node t children => allowedNamesList (some t) children
termination_by sizeOf n
decreasing_by
  simp only [PyNode.node.sizeOf_spec]
  omega

/-- `allowedNames` over a child list. -/
def allowedNamesList (p : Option String) (l : List PyNode) : List PyNode :=
  match l with
  | [] => []
  | c :: cs => allowedNames p c ++ allowedNamesList p cs
termination_by sizeOf l
decreasing_by
  · simp only [List.cons.sizeOf_spec]
    omega
  · simp only [List.cons.sizeOf_spec]
    omega

end

/-- Is this node a `name` leaf? -/
def isNameLeaf : PyNode → Bool
  | PyNode.leaf t _ _ _ => t = "name"
  | PyNode.node _ _ => false

/-- The environment of `SuperInstance` (stdlib.py lines 246-267): the
calling instance's class's `py__bases__` (each lazy base as its inferred
values), `execute_with_values` resolving a base value to the instances it
executes to, and each executed object's `get_filters` stream (filters
abstracted to tags). -/
structure SuperEnv where
  bases : List (List Value)
  executeWithValues : Value → List Value
  instFilters : Value → List Nat

/-- Embeds `SuperInstance.get_filters`: the three nested `for`/`yield`
loops over every declared base. -/
def superGetFilters (env : SuperEnv) : List Nat :=
  (env.bases.map fun lazyVals =>
    (lazyVals.map fun v =>
      ((env.executeWithValues v).map fun obj => env.instFilters obj).flatten).flatten).flatten

/-- What claim C7 asserts the filters are: the same walk restricted to the
first declared base only. -/
def superFirstBaseFilters (env : SuperEnv) : List Nat :=
  ((env.bases.take 1).map fun lazyVals =>
    (lazyVals.map fun v =>
      ((env.executeWithValues v).map fun obj => env.instFilters obj).flatten).flatten).flatten

/-- The environment of `PartialObject` (stdlib.py lines 485-533): the
unpacked construction arguments (optional keyword, inferred value — the
first entry is the wrapped callable) and each callable's signatures, one
parameter-name list per signature. -/
structure PartialEnv where
  args : List (Option String × Value)
  funcSigs : Value → List (List String)

/-- Embeds `PartialSignature.get_param_names` (stdlib.py lines 525-533):
drop the pre-bound positional count, then drop every parameter whose name
is among the pre-bound keywords. -/
def partialParamNames (skippedArgCount : Nat) (skippedArgSet : List String)
    (ps : List String) : List String :=
  (ps.drop skippedArgCount).filter fun n => !(skippedArgSet.contains n)

/-- Embeds the counting loop of `PartialObject.get_signatures`: the
`(arg_count, keys)` accumulator over the arguments after the callable. -/
def partialCountArgs (rest : List (Option String × Value)) : Nat × List String :=
  rest.foldl
    (fun acc p =>
      match p.1 with
      | none => (acc.1 + 1, acc.2)
      | some k => (acc.1, acc.2 ++ [k]))
    (0, [])

/-- Embeds `PartialObject._get_function` ∘ `PartialObject.get_signatures`
(stdlib.py lines 493-513): no or keyworded first argument means no
callable, hence no signatures; otherwise each signature of the callable is
wrapped with the pre-bound positional count and keyword-name set. -/
def PartialObject.getSignatures (env : PartialEnv) : List (List String) :=
  match env.args with
  | (none, f) :: rest =>
      let counts := partialCountArgs rest
      (env.funcSigs f).map fun ps => partialParamNames counts.1 counts.2 ps
  | _ => []

/-- Embeds `builtins_type` (stdlib.py lines 237-243) after the argument
clinic unpacked the call into the three value sets: a non-empty `bases` or
`dict` set yields nothing, otherwise the class of every first-argument
value (`ValueSet` deduplication kept first-occurrence). -/
def builtinsType (pyClass : Value → Value) (objects bases dicts : List Value) :
    List Value :=
  if bases ≠ [] ∨ dicts ≠ [] then []
  else dedupAppend [] (objects.map pyClass)

/-- A table with one plain class `A` (no base-argument list) and the
builtin class `object`. -/
def envNoBases : Env :=
  ⟨[⟨"A", none, false⟩, ⟨"object", none, true⟩], [Value.cls 1]⟩

/-- A table whose class `A` declares itself as its only base. -/
def envSelfCycle : Env :=
  ⟨[⟨"A", some [(none, [Value.cls 0])], false⟩], []⟩

/-- A table with the two-class cycle `A(B)` / `B(A)`. -/
def envTwoCycle : Env :=
  ⟨[⟨"A", some [(none, [Value.cls 1])], false⟩,
    ⟨"B", some [(none, [Value.cls 0])], false⟩], []⟩

/-- A class whose base-argument list is non-empty but purely keyword
(`class A(metaclass=M)`). -/
def envKwOnly : Env :=
  ⟨[⟨"A", some [(some "metaclass", [Value.other 3])], false⟩], [Value.other 7]⟩

/-- A class with a `metaclass=` keyword inferring to one class and one
non-class value. -/
def envMeta : Env :=
  ⟨[⟨"A", some [(some "metaclass", [Value.cls 1, Value.other 5])], false⟩,
    ⟨"M", none, true⟩], [Value.other 7]⟩

/-- The class-body name `__secret` bound by a plain assignment. -/
def secretName : MemberName := ⟨"__secret", false, false⟩

/-- The class-body name `__secret__` bound by a plain assignment. -/
def dunderName : MemberName := ⟨"__secret__", false, false⟩

/-- An `if x: a else: b` compound statement: children are the `if`
keyword, the condition, the colon, the first suite, the `else` keyword,
its colon and the last suite. -/
def flowIfElse : FlowNode :=
  ⟨0, 10, [⟨0, "if"⟩, ⟨3, "x"⟩, ⟨4, ":"⟩, ⟨5, "a"⟩, ⟨6, "else"⟩, ⟨7, ":"⟩, ⟨8, "b"⟩]⟩

/-- A super-proxy environment for an instance whose class declares two
bases that execute to distinct instances with distinct filters. -/
def superEnvTwoBases : SuperEnv :=
  ⟨[[Value.other 1], [Value.other 2]],
   fun v =>
     match v with
     | Value.other 1 => [Value.other 11]
     | Value.other 2 => [Value.other 12]
     | _ => [],
   fun v =>
     match v with
     | Value.other 11 => [1]
     | Value.other 12 => [2]
     | _ => []⟩

/-- A partial-application environment: wrapped callable with parameters
`(a, b, c)`, pre-bound arguments `(1,)` positional and `{c: 9}`
keyword. -/
def envPartialABC : PartialEnv :=
  ⟨[(none, Value.other 0), (none, Value.other 1), (some "c", Value.other 2)],
   fun v =>
     match v with
     | Value.other 0 => [["a", "b", "c"]]
     | _ => []⟩

/-- A `comparison` node over two names, `x < y`. -/
def treeComparison : PyNode :=
  PyNode.node "comparison"
    [PyNode.leaf "name" "x" 0 false,
     PyNode.leaf "operator" "<" 1 false,
     PyNode.leaf "name" "y" 2 false]

/-- A `name` leaf whose parent is a `param` node, as in a function
signature `def f(y): ...`. -/
def treeParam : PyNode :=
  PyNode.node "param" [PyNode.leaf "name" "y" 4 false]

/-!  Helper lemmas.  -/

/-- Unfolding of `pyMroAux` at a successor fuel value. -/
theorem pyMroAux_succ (env : Env) (fuel : Nat) (inProg : List Nat) (i : Nat) :
    pyMroAux env (fuel + 1) inProg i =
      (pyBases env i).foldl
        (fun mro lazyVals =>
          lazyVals.foldl
            (fun m v =>
              match v with
              | Value.cls j =>
                  if j = i ∨ j ∈ inProg then m
                  else dedupAppend m (pyMroAux env fuel (i :: inProg) j)
              | Value.other _ => m)
            mro)
        [Value.cls i] := rfl

/-- Unfolding of `dedupAppend` on a cons cell. -/
theorem dedupAppend_cons (m : List Value) (c : Value) (l : List Value) :
    dedupAppend m (c :: l) = dedupAppend (if c ∈ m then m else m ++ [c]) l := rfl

/-- `dedupAppend` keeps the accumulator duplicate-free. -/
theorem dedupAppend_nodup : ∀ (l m : List Value), m.Nodup → (dedupAppend m l).Nodup
  | [], _, h => h
  | c :: l, m, h => by
      rw [dedupAppend_cons]
      by_cases hc : c ∈ m
      · simpa [hc] using dedupAppend_nodup l m h
      · have hm : (m ++ [c]).Nodup := by simp [List.nodup_append, h, hc]
        simpa [hc] using dedupAppend_nodup l (m ++ [c]) hm

/-- `dedupAppend` never changes the head of a non-empty accumulator. -/
theorem dedupAppend_head : ∀ (l m : List Value), m ≠ [] →
    (dedupAppend m l).head? = m.head?
  | [], _, _ => rfl
  | c :: l, m, hm => by
      rw [dedupAppend_cons]
      by_cases hc : c ∈ m
      · simpa [hc] using dedupAppend_head l m hm
      · have h3 := dedupAppend_head l (m ++ [c]) (by simp)
        rw [if_neg hc, h3]
        cases m with
        | nil => exact absurd rfl hm
        | cons a as => simp

/-- A `foldl` step that preserves an invariant preserves it over the whole
list. -/
theorem foldl_preserve {α β : Type} (P : α → Prop) (f : α → β → α)
    (hf : ∀ a b, P a → P (f a b)) :
    ∀ (l : List β) (a : α), P a → P (l.foldl f a)
  | [], _, h => h
  | b :: l, a, h => foldl_preserve P f hf l (f a b) (hf a b h)

/-- Any run of `pyMroAux` with at least one unit of fuel yields the class
itself first and never yields duplicates. -/
theorem pyMroAux_head_nodup (env : Env) (fuel : Nat) (inProg : List Nat) (i : Nat) :
    (pyMroAux env (fuel + 1) inProg i).head? = some (Value.cls i) ∧
    (pyMroAux env (fuel + 1) inProg i).Nodup := by
  rw [pyMroAux_succ]
  refine foldl_preserve
    (fun m => m.head? = some (Value.cls i) ∧ m.Nodup) _ ?_ (pyBases env i)
    [Value.cls i] (by simp)
  intro m lazyVals hP
  refine foldl_preserve
    (fun m => m.head? = some (Value.cls i) ∧ m.Nodup) _ ?_ lazyVals m hP
  intro m2 v hP2
  cases v with
  | cls j =>
      by_cases hcond : j = i ∨ j ∈ inProg
      · simpa [hcond] using hP2
      · have hne : m2 ≠ [] := by
          intro h0
          rw [h0] at hP2
          simp at hP2
        simp only [if_neg hcond]
        exact ⟨(dedupAppend_head _ m2 hne).trans hP2.1,
               dedupAppend_nodup _ m2 hP2.2⟩
  | other t => exact hP2

/-- `pyMro` yields the class itself first and never yields duplicates. -/
theorem pyMro_head_nodup (env : Env) (i : Nat) :
    (pyMro env i).head? = some (Value.cls i) ∧ (pyMro env i).Nodup :=
  pyMroAux_head_nodup env (env.table.length + 1) [] i

/-- A class whose positional bases are empty and which is not the builtin
`object` falls back to the single implicit `object` base. -/
theorem pyBases_default (env : Env) (i : Nat) (c : ClassInfo)
    (hc : env.table.get? i = some c) (hpos : positionalBases c = [])
    (hno : ¬(c.name = "object" ∧ c.inBuiltins)) :
    pyBases env i = [env.objectValues] := by
  unfold pyBases
  rw [hc]
  simp [hpos, hno]

/-- The builtin `object` class without positional bases has no bases. -/
theorem pyBases_object (env : Env) (i : Nat) (c : ClassInfo)
    (hc : env.table.get? i = some c) (hpos : positionalBases c = [])
    (hobj : c.name = "object" ∧ c.inBuiltins) :
    pyBases env i = [] := by
  unfold pyBases
  rw [hc]
  simp [hpos, hobj.1, hobj.2]

/-- A class with no bases has the singleton MRO. -/
theorem pyMroAux_no_bases (env : Env) (fuel : Nat) (inProg : List Nat) (i : Nat)
    (h : pyBases env i = []) : pyMroAux env (fuel + 1) inProg i = [Value.cls i] := by
  rw [pyMroAux_succ, h]
  rfl

/-!  Claim theorems.  -/

/-- C1: for every class `C`, `py__mro__` begins with `C` itself and
contains no duplicate classes; and for a class whose base-argument list
yields no positional bases (in particular a class with no explicit bases)
and which is not the builtin `object` itself, the MRO is exactly
`[C, object]` — it begins with `C` and ends with the universal root class
resolved from the builtin scope. -/
theorem mro_self_first_nodup_object_last :
    (∀ (env : Env) (i : Nat),
       (pyMro env i).head? = some (Value.cls i) ∧ (pyMro env i).Nodup) ∧
    (∀ (env : Env) (i oid : Nat) (c co : ClassInfo),
       env.table.get? i = some c →
       positionalBases c = [] →
       ¬(c.name = "object" ∧ c.inBuiltins) →
       env.objectValues = [Value.cls oid] →
       env.table.get? oid = some co →
       positionalBases co = [] →
       (co.name = "object" ∧ co.inBuiltins) →
       pyMro env i = [Value.cls i, Value.cls oid] ∧
       (pyMro env i).getLast? = some (Value.cls oid)) := by
  constructor
  · exact fun env i => pyMro_head_nodup env i
  · intro env i oid c co hc hpos hno hov hco hpo hobj
    have hio : i ≠ oid := by
      intro h
      rw [h, hco] at hc
      cases hc
      exact hno hobj
    have hb1 : pyBases env i = [env.objectValues] := pyBases_default env i c hc hpos hno
    have hb2 : pyBases env oid = [] := pyBases_object env oid co hco hpo hobj
    have hmain : pyMro env i = [Value.cls i, Value.cls oid] := by
      show pyMroAux env (env.table.length + 1 + 1) [] i = _
      rw [pyMroAux_succ, hb1, hov]
      simp only [List.foldl]
      rw [if_neg (by simp [Ne.symm hio])]
      rw [pyMroAux_no_bases env env.table.length [i] oid hb2]
      rw [dedupAppend_cons, if_neg (by simp [Ne.symm hio])]
      rfl
    exact ⟨hmain, by rw [hmain]; rfl⟩

/-- Witness for C1: in a table with a base-less class `A` and the builtin
`object`, the MRO of `A` is `[A, object]`. -/
theorem mro_self_first_nodup_object_last_witness :
    pyMro envNoBases 0 = [Value.cls 0, Value.cls 1] ∧
    (pyMro envNoBases 0).getLast? = some (Value.cls 1) :=
  mro_self_first_nodup_object_last.2 envNoBases 0 1
    ⟨"A", none, false⟩ ⟨"object", none, true⟩
    rfl rfl (by decide) rfl rfl rfl (by decide)

/-- C2: `py__mro__` always terminates (it is a total function of the
embedded state) and yields every class — in particular a class that
appears in its own transitive base chain — exactly once: visited classes
are skipped, not re-expanded.  The concrete conjuncts run the direct cycle
`class A(A)` and the mutual cycle `class A(B) / class B(A)`: `py__bases__`
terminates on them too, and `A` occurs once in each MRO. -/
theorem mro_cyclic_terminates_once :
    (∀ (env : Env) (i : Nat), (pyMro env i).count (Value.cls i) = 1) ∧
    pyBases envSelfCycle 0 = [[Value.cls 0]] ∧
    pyMro envSelfCycle 0 = [Value.cls 0] ∧
    pyMro envTwoCycle 0 = [Value.cls 0, Value.cls 1] := by
  refine ⟨?_, by decide, by decide, by decide⟩
  intro env i
  have h := pyMro_head_nodup env i
  have hmem : Value.cls i ∈ pyMro env i := List.mem_of_mem_head? (by simp [h.1])
  exact List.count_eq_one_of_mem h.2 hmem

/-- C3 counterexample: the claim says `py__bases__` returns exactly the
positional arguments whenever the base-argument list is present and
non-empty, but `class A(metaclass=M)` has a present, non-empty list whose
positional part is empty, and the code then falls back to the implicit
`object` base instead of returning no bases. -/
theorem bases_claim_counterexample :
    ¬(∀ (env : Env) (i : Nat) (c : ClassInfo)
        (lst : List (Option String × List Value)),
        env.table.get? i = some c → c.arglist = some lst → lst ≠ [] →
        pyBases env i = ((lst.filter fun p => p.1 = none).map fun p => p.2)) := by
  intro h
  have h2 := h envKwOnly 0 ⟨"A", some [(some "metaclass", [Value.other 3])], false⟩
    [(some "metaclass", [Value.other 3])] rfl rfl (by decide)
  exact absurd h2 (by decide)

/-- C3 amended: `py__bases__` returns exactly the positional arguments of
the base-argument list when that positional part is non-empty; when it is
empty (the list being absent, empty, or keyword-only), the builtin
`object` defined in the builtins module gets no bases and every other
class gets the single implicit lazy base resolving to the builtin
`object`. -/
theorem bases_characterization (env : Env) (i : Nat) (c : ClassInfo)
    (hc : env.table.get? i = some c) :
    (positionalBases c ≠ [] → pyBases env i = positionalBases c) ∧
    (positionalBases c = [] → (c.name = "object" ∧ c.inBuiltins) →
      pyBases env i = []) ∧
    (positionalBases c = [] → ¬(c.name = "object" ∧ c.inBuiltins) →
      pyBases env i = [env.objectValues]) := by
  refine ⟨?_, ?_, ?_⟩
  · intro hpos
    unfold pyBases
    rw [hc]
    simp [hpos]
  · intro hpos hobj
    exact pyBases_object env i c hc hpos hobj
  · intro hpos hno
    exact pyBases_default env i c hc hpos hno

/-- Witness for the amended C3: the keyword-only class of `envKwOnly`
falls back to the implicit `object` base. -/
theorem bases_characterization_witness :
    pyBases envKwOnly 0 = [envKwOnly.objectValues] :=
  (bases_characterization envKwOnly 0
    ⟨"A", some [(some "metaclass", [Value.other 3])], false⟩ rfl).2.2
    (by decide) (by decide)

/-- Unfolding of `getMetaclassesAux` at a successor fuel value. -/
theorem getMetaclassesAux_succ (env : Env) (fuel : Nat) (inProg : List Nat) (i : Nat) :
    getMetaclassesAux env (fuel + 1) inProg i =
      match env.table.get? i with
      | none => []
      | some c =>
        let kw := metaclassKwValues c
        if kw ≠ [] then kw
        else
          firstNonempty
            ((pyBases env i).flatten.filterMap fun v =>
              match v with
              | Value.cls j =>
                  some (if j = i ∨ j ∈ inProg then []
                        else getMetaclassesAux env fuel (i :: inProg) j)
              | Value.other _ => none) := rfl

/-- All-empty candidate lists scan to the empty result. -/
theorem firstNonempty_eq_nil : ∀ (L : List (List Value)),
    (∀ l ∈ L, l = []) → firstNonempty L = []
  | [], _ => rfl
  | x :: xs, h => by
      have hx := h x (by simp)
      simp only [firstNonempty, hx, if_pos]
      exact firstNonempty_eq_nil xs fun l hl => h l (by simp [hl])

/-- C4: `get_metaclasses` returns the class-valued inferences of the
`metaclass=` keyword when there are any; otherwise the first non-empty
metaclass set found scanning the inferred base classes in declaration
order; otherwise the empty set. -/
theorem metaclasses_priority (env : Env) (i : Nat) (c : ClassInfo)
    (hc : env.table.get? i = some c) :
    (metaclassKwValues c ≠ [] → getMetaclasses env i = metaclassKwValues c) ∧
    (metaclassKwValues c = [] →
      getMetaclasses env i = firstNonempty (scanResults env i)) ∧
    (metaclassKwValues c = [] → (∀ l ∈ scanResults env i, l = []) →
      getMetaclasses env i = []) := by
  have hstep : getMetaclasses env i =
      (if metaclassKwValues c ≠ [] then metaclassKwValues c
       else firstNonempty (scanResults env i)) := by
    show getMetaclassesAux env (env.table.length + 1 + 1) [] i = _
    rw [getMetaclassesAux_succ, hc]
    simp only []
    by_cases hkw : metaclassKwValues c ≠ []
    · simp [hkw]
    · simp only [hkw, if_neg, if_false]
      have hfun :
          (fun v =>
            match v with
            | Value.cls j =>
                some (if j = i ∨ j ∈ ([] : List Nat) then []
                      else getMetaclassesAux env (env.table.length + 1) [i] j)
            | Value.other _ => none) =
          (fun v =>
            match v with
            | Value.cls j =>
                some (if j = i then []
                      else getMetaclassesAux env (env.table.length + 1) [i] j)
            | Value.other _ => none) := by
        funext v
        cases v <;> simp
      rw [hfun]
      rfl
  refine ⟨?_, ?_, ?_⟩
  · intro hkw
    rw [hstep, if_pos hkw]
  · intro hkw
    rw [hstep, if_neg (by simp [hkw])]
  · intro hkw hall
    rw [hstep, if_neg (by simp [hkw])]
    exact firstNonempty_eq_nil _ hall

/-- Witness for C4: a `metaclass=M` keyword inferring to the class `M` and
a non-class value yields exactly `{M}`. -/
theorem metaclasses_priority_witness :
    getMetaclasses envMeta 0 = [Value.cls 1] := by
  have h := (metaclasses_priority envMeta 0
    ⟨"A", some [(some "metaclass", [Value.cls 1, Value.other 5])], false⟩ rfl).1
    (by decide)
  rw [h]
  decide

/-- C5: for a class body defining `__secret` and `__secret__`, a filter
whose origin scope's ancestor chain never meets the class (origin outside
the class body) hides `__secret` but shows `__secret__`; a filter whose
chain reaches the class's parser scope or value (origin inside the class
body or one of its nested scopes) shows both. -/
theorem class_filter_mangling (ps vs : Nat) (chainOut chainIn : List Nat)
    (fi : Bool)
    (hout : ∀ n ∈ chainOut, ¬(n = ps ∨ n = vs))
    (hin : ∃ n ∈ chainIn, n = ps ∨ n = vs) :
    classFilterNames ps vs chainOut fi [secretName, dunderName] = [dunderName] ∧
    classFilterNames ps vs chainIn fi [secretName, dunderName] =
      [secretName, dunderName] := by
  have hOutScope : equalsOriginScope ps vs chainOut = false := by
    simp only [equalsOriginScope, List.any_eq_false, decide_eq_true_eq]
    exact hout
  have hInScope : equalsOriginScope ps vs chainIn = true := by
    simp only [equalsOriginScope, List.any_eq_true, decide_eq_true_eq]
    exact hin
  have hsecOut : accessPossible ps vs chainOut fi secretName = false := by
    unfold accessPossible
    rw [hOutScope]
    simp +decide [secretName, strStartsWith, strEndsWith]
  have hdunOut : accessPossible ps vs chainOut fi dunderName = true := by
    unfold accessPossible
    rw [hOutScope]
    simp +decide [dunderName, strStartsWith, strEndsWith]
  have hsecIn : accessPossible ps vs chainIn fi secretName = true := by
    unfold accessPossible
    rw [hInScope]
    simp +decide [secretName, strStartsWith, strEndsWith]
  have hdunIn : accessPossible ps vs chainIn fi dunderName = true := by
    unfold accessPossible
    rw [hInScope]
    simp +decide [dunderName, strStartsWith, strEndsWith]
  constructor
  · simp [classFilterNames, List.filter, hsecOut, hdunOut]
  · simp [classFilterNames, List.filter, hsecIn, hdunIn]

/-- Witness for C5: a chain `[5, 6]` disjoint from scopes `0`/`1` hides
`__secret`; the chain `[7, 0]` reaching the parser scope `0` shows
both. -/
theorem class_filter_mangling_witness :
    classFilterNames 0 1 [5, 6] false [secretName, dunderName] = [dunderName] ∧
    classFilterNames 0 1 [7, 0] false [secretName, dunderName] =
      [secretName, dunderName] :=
  class_filter_mangling 0 1 [5, 6] [7, 0] false (by decide)
    ⟨0, by decide, by decide⟩

/-- C6: `get_flow_branch_keyword` does return the introducing keyword for
a node in a non-final branch (`if` for position 5 of `flowIfElse`), but
for a node inside the statement's last child — here position 9, inside the
`else` suite — the loop falls through to the literal `return 0` instead of
returning the gathered `else` keyword. -/
theorem flow_branch_keyword_last_branch_bug :
    getFlowBranchKeyword flowIfElse 5 = FlowResult.kw (some "if") ∧
    getFlowBranchKeyword flowIfElse 9 = FlowResult.zero ∧
    FlowResult.zero ≠ FlowResult.kw (some "else") ∧
    getFlowBranchKeyword flowIfElse 0 = FlowResult.err := by
  refine ⟨by decide, by decide, by decide, by decide⟩

/-- C7 counterexample: with two declared bases whose instances expose
distinct filters, the super proxy yields the second base's filter too —
lookup is not restricted to the first declared base. -/
theorem super_filters_claim_counterexample :
    superGetFilters superEnvTwoBases ≠ superFirstBaseFilters superEnvTwoBases ∧
    superGetFilters superEnvTwoBases = [1, 2] ∧
    superFirstBaseFilters superEnvTwoBases = [1] := by
  refine ⟨by decide, by decide, by decide⟩

/-- C7 amended: the super proxy's filters are exactly those produced by
every declared base, in declaration order — a filter is yielded iff some
declared base has an inferred value executing to an object that exposes
it. -/
theorem super_filters_all_bases (env : SuperEnv) (x : Nat) :
    x ∈ superGetFilters env ↔
      ∃ lazyVals ∈ env.bases, ∃ v ∈ lazyVals,
        ∃ obj ∈ env.executeWithValues v, x ∈ env.instFilters obj := by
  simp [superGetFilters]

/-- The `(arg_count, keys)` loop of `PartialObject.get_signatures` counts
the positional arguments and collects the keyword names. -/
theorem partialCountArgs_foldl (rest : List (Option String × Value)) :
    ∀ (acc : Nat × List String),
      rest.foldl
        (fun acc p =>
          match p.1 with
          | none => (acc.1 + 1, acc.2)
          | some k => (acc.1, acc.2 ++ [k])) acc =
      (acc.1 + rest.countP fun p => p.1 = none,
       acc.2 ++ rest.filterMap fun p => p.1) := by
  induction rest with
  | nil => intro acc; simp
  | cons p rest ih =>
      intro acc
      rw [List.foldl_cons]
      cases hp : p.1 with
      | none =>
          simp [hp, ih, List.countP_cons, Prod.ext_iff]
          try omega
      | some k =>
          simp [hp, ih, List.countP_cons, Prod.ext_iff]
          try omega

/-- Closed form of `partialCountArgs`. -/
theorem partialCountArgs_spec (rest : List (Option String × Value)) :
    partialCountArgs rest =
      ((rest.countP fun p => p.1 = none), rest.filterMap fun p => p.1) := by
  unfold partialCountArgs
  rw [partialCountArgs_foldl]
  simp

/-- C8: when the wrapper's first construction argument is the positional
callable `f`, its reported signatures are the callable's signatures with
the first `k` parameters dropped (`k` = number of pre-bound positional
arguments after `f`) and every parameter named by a pre-bound keyword
removed. -/
theorem partial_signatures (env : PartialEnv) (f : Value)
    (rest : List (Option String × Value)) (h : env.args = (none, f) :: rest) :
    PartialObject.getSignatures env =
      (env.funcSigs f).map fun ps =>
        (ps.drop (rest.countP fun p => p.1 = none)).filter
          fun n => !((rest.filterMap fun p => p.1).contains n) := by
  unfold PartialObject.getSignatures
  rw [h]
  simp only [partialCountArgs_spec]
  rfl

/-- Witness for C8: parameters `(a, b, c)` with pre-bound `(1,)` and
`{c: 9}` report exactly `(b,)`. -/
theorem partial_signatures_witness :
    PartialObject.getSignatures envPartialABC = [["b"]] := by
  rw [partial_signatures envPartialABC (Value.other 0)
    [(none, Value.other 1), (some "c", Value.other 2)] rfl]
  decide

/-- C9: the type-introspection patch returns the empty set whenever the
`bases` or `dict` argument sets are non-empty, and only the one-argument
form returns the (deduplicated) classes of the first argument's values. -/
theorem builtins_type_spec (pyClass : Value → Value)
    (objects bases dicts : List Value) :
    (bases ≠ [] ∨ dicts ≠ [] → builtinsType pyClass objects bases dicts = []) ∧
    (bases = [] → dicts = [] →
      builtinsType pyClass objects bases dicts =
        dedupAppend [] (objects.map pyClass)) := by
  constructor
  · intro h
    unfold builtinsType
    rw [if_pos h]
  · intro hb hd
    unfold builtinsType
    rw [if_neg (by simp [hb, hd])]

/-- Witness for C9: a two-argument call yields nothing; the one-argument
call yields the first argument's class. -/
theorem builtins_type_spec_witness :
    builtinsType (fun _ => Value.cls 9) [Value.other 0] [Value.other 1] [] = [] ∧
    builtinsType (fun _ => Value.cls 9) [Value.other 0] [] [] = [Value.cls 9] := by
  constructor
  · exact (builtins_type_spec (fun _ => Value.cls 9) [Value.other 0]
      [Value.other 1] []).1 (Or.inl (by decide))
  · have h := (builtins_type_spec (fun _ => Value.cls 9) [Value.other 0] [] []).2
      rfl rfl
    rw [h]
    decide

/-- Names allowed inside one child are allowed inside the child list. -/
theorem allowedNamesList_of_mem (p : Option String) :
    ∀ (l : List PyNode) (c : PyNode), c ∈ l →
      ∀ x, x ∈ allowedNames p c → x ∈ allowedNamesList p l := by
  intro l
  induction l with
  | nil => intro c hc; simp at hc
  | cons a as ih =>
      intro c hc x hx
      simp only [allowedNamesList]
      rcases List.mem_cons.mp hc with h1 | h2
      · subst h1
        exact List.mem_append.mpr (Or.inl hx)
      · exact List.mem_append.mpr (Or.inr (ih c h2 x hx))

/-- Size-bounded mutual induction behind C10: every `name` leaf that
`get_executable_nodes` emits occurs in the tree at a position whose parent
type is not `param` and whose next leaf is not `=`. -/
theorem exec_allowed_aux : ∀ (k : Nat),
    (∀ (n : PyNode), sizeOf n ≤ k →
      ∀ (p : Option String) (la : Bool) (x : PyNode),
        x ∈ getExecutableNodes p la n → isNameLeaf x = true →
        x ∈ allowedNames p n) ∧
    (∀ (l : List PyNode), sizeOf l ≤ k →
      ∀ (p : Option String) (la : Bool) (x : PyNode),
        x ∈ execNodesList p la l → isNameLeaf x = true →
        x ∈ allowedNamesList p l) := by
  intro k
  induction k using Nat.strong_induction_on with
  | _ k ih =>
    constructor
    · intro n hn p la x hx hname
      cases n with
      | leaf t v pos e =>
          simp only [getExecutableNodes] at hx
          split at hx
          · split at hx
            · rename_i ht hcond
              simp only [List.mem_singleton] at hx
              subst hx
              simp [allowedNames, ht, hcond.2.1, hcond.2.2]
            · simp at hx
          · simp at hx
      | node t children =>
          have hch : sizeOf children < k := by
            have := PyNode.node.sizeOf_spec t children
            omega
          simp only [getExecutableNodes] at hx
          split at hx
          · -- expr_stmt
            rename_i hexpr
            rcases List.mem_cons.mp hx with h1 | h2
            · subst h1
              simp [isNameLeaf] at hname
            · have h3 := (ih (sizeOf children) hch).2 children le_rfl
                (some t) true x h2 hname
              simpa [allowedNames] using h3
          · split at hx
            · -- decorator
              split at hx
              · split at hx
                · split at hx
                  · split at hx
                    · simp at hx
                    · rename_i r hget2 hr m hget3 hm
                      have hmem := List.get?_mem hget3
                      have hszm : sizeOf m < k := by
                        have h5 := List.sizeOf_lt_of_mem hmem
                        omega
                      have h4 := (ih (sizeOf m) hszm).1 m le_rfl (some t) false x hx hname
                      have h5 := allowedNamesList_of_mem (some t) children m hmem x h4
                      simpa [allowedNames] using h5
                  · simp at hx
                · simp at hx
              · simp at hx
            · -- generic node
              rcases List.mem_append.mp hx with h1 | h2
              · split at h1
                · simp only [List.mem_singleton] at h1
                  subst h1
                  simp [isNameLeaf] at hname
                · simp at h1
              · have h3 := (ih (sizeOf children) hch).2 children le_rfl
                  (some t) la x h2 hname
                simpa [allowedNames] using h3
    · intro l hl p la x hx hname
      cases l with
      | nil => simp [execNodesList] at hx
      | cons c cs =>
          have hsz : sizeOf c < k ∧ sizeOf cs < k := by
            have := List.cons.sizeOf_spec c cs
            constructor <;> omega
          simp only [execNodesList] at hx
          simp only [allowedNamesList]
          rcases List.mem_append.mp hx with h1 | h2
          · exact List.mem_append.mpr
              (Or.inl ((ih (sizeOf c) hsz.1).1 c le_rfl p la x h1 hname))
          · exact List.mem_append.mpr
              (Or.inr ((ih (sizeOf cs) hsz.2).2 cs le_rfl p la x h2 hname))

/-- C10: no `name` leaf emitted by `get_executable_nodes` sits under a
`param` parent — every emitted `name` occurs in the tree at a position
whose parent type is not `param` (and whose next leaf is not `=`), and a
tree whose `name` leaves all sit under `param` nodes admits none of
them. -/
theorem executable_nodes_exclude_param_names (n : PyNode) (p : Option String)
    (la : Bool) (x : PyNode) (hx : x ∈ getExecutableNodes p la n)
    (hname : isNameLeaf x = true) : x ∈ allowedNames p n :=
  (exec_allowed_aux (sizeOf n)).1 n le_rfl p la x hx hname

/-- Witness for C10: in the comparison `x < y` the emitted name `y`
occurs with the non-`param` parent `comparison`; and on a `param` node the
result of `get_executable_nodes` is empty. -/
theorem executable_nodes_exclude_param_names_witness :
    PyNode.leaf "name" "y" 2 false ∈ allowedNames none treeComparison ∧
    getExecutableNodes none false treeParam = [] ∧
    allowedNames none treeParam = [] :=
  ⟨executable_nodes_exclude_param_names treeComparison none false
      (PyNode.leaf "name" "y" 2 false)
      (by simp [treeComparison, getExecutableNodes, execNodesList, executeNodeTypes])
      (by simp [isNameLeaf]),
   by simp [treeParam, getExecutableNodes, execNodesList, executeNodeTypes],
   by simp [treeParam, allowedNames, allowedNamesList]⟩

end JediSpec
